import Mathlib

set_option maxRecDepth 100000

/-!
Verification of the tool-call orchestration core of an AI-character chat
backend.  The Python sources embedded here are
`backend/plugins/tool_call_parser.py`, `backend/plugins/tool_executor.py`,
`backend/plugins/plugin.py` and `backend/app/services/chat_service.py`.
Python strings are modelled as lists of characters.
-/

namespace EmoCore

/-- Python strings, modelled as lists of characters. -/
abbrev PyStr := List Char

/-- The whitespace class used by Python's `str.strip()` and by `\s` in the
`re` module, restricted to the ASCII whitespace characters occurring in this
codebase. -/
def pyIsSpace (c : Char) : Bool :=
  c = ' ' || c = '\t' || c = '\n' || c = '\r' || c = '\x0b' || c = '\x0c'

/-- Python's `\w` character class (`[a-zA-Z0-9_]` plus word characters of the
wider scripts used by this repository, here the CJK unified ideographs). -/
def pyIsWordChar (c : Char) : Bool :=
  c.isAlphanum || c = '_' || (0x4E00 ≤ c.toNat && c.toNat ≤ 0x9FFF)

/-- `str.lstrip()`. -/
def lstrip (s : PyStr) : PyStr := s.dropWhile pyIsSpace

/-- `str.rstrip()`. -/
def rstrip (s : PyStr) : PyStr := (s.reverse.dropWhile pyIsSpace).reverse

/-- `str.strip()`. -/
def pyStrip (s : PyStr) : PyStr := rstrip (lstrip s)

/-- `sep.join(xs)`. -/
def joinSep (sep : PyStr) : List PyStr → PyStr
  | [] => []
  | [x] => x
  | x :: y :: rest => x ++ sep ++ joinSep sep (y :: rest)

/-- `"".join(xs)`. -/
def joinAll : List PyStr → PyStr
  | [] => []
  | x :: rest => x ++ joinAll rest

/-- Python's `pat in s` substring test. -/
def containsSub (pat : PyStr) : PyStr → Bool
  | [] => pat.isEmpty
  | c :: rest => pat.isPrefixOf (c :: rest) || containsSub pat rest

/-- Python's `s.find(pat)`, presented as a split: `some (before, after)`
with `s = before ++ pat ++ after` at the first occurrence of `pat`. -/
def splitFirst (pat : PyStr) : PyStr → Option (PyStr × PyStr)
  | [] => if pat.isPrefixOf ([] : PyStr) then some ([], []) else none
  | c :: rest =>
    if pat.isPrefixOf (c :: rest) then some ([], (c :: rest).drop pat.length)
    else (splitFirst pat rest).map fun p => (c :: p.1, p.2)

/-- The opening value delimiter `「始」` of the VCP parameter syntax. -/
def openDelim : PyStr := "「始」".data

/-- The closing value delimiter `「末」` of the VCP parameter syntax. -/
def closeDelim : PyStr := "「末」".data

/-- One attempted match of `ToolCallParser.PARAM_REGEX`
(`([\w_]+)\s*:\s*「始」([\s\S]*?)「末」\s*(?:,)?`), anchored at the head of
`s`.  Returns the captured key and value together with the text following
the match.  The lazy value group stops at the first later `「末」`, and the
greedy pieces cannot backtrack usefully because no word character is a
space or a colon. -/
def paramMatchHere (s : PyStr) : Option (PyStr × PyStr × PyStr) :=
  if (s.takeWhile pyIsWordChar).isEmpty then none
  else
    match (s.dropWhile pyIsWordChar).dropWhile pyIsSpace with
    | ':' :: s3 =>
      if openDelim.isPrefixOf (s3.dropWhile pyIsSpace) then
        match splitFirst closeDelim ((s3.dropWhile pyIsSpace).drop openDelim.length) with
        | some p =>
          some (s.takeWhile pyIsWordChar, p.1,
            if (p.2.dropWhile pyIsSpace).head? = some ',' then (p.2.dropWhile pyIsSpace).tail
            else p.2.dropWhile pyIsSpace)
        | none => none
      else none
    | _ => none

theorem isPrefixOf_eq_append {pat s : PyStr} (h : pat.isPrefixOf s = true) :
    s = pat ++ s.drop pat.length := by
  obtain ⟨t, rfl⟩ := List.isPrefixOf_iff_prefix.1 h
  simp [List.drop_left]

theorem splitFirst_eq_append {pat : PyStr} :
    ∀ {s b a : PyStr}, splitFirst pat s = some (b, a) → s = b ++ pat ++ a := by
  intro s
  induction s with
  | nil =>
    intro b a h
    simp only [splitFirst] at h
    split at h
    · rename_i hp
      have hpat : pat = [] := by
        cases pat with
        | nil => rfl
        | cons c t => simp [List.isPrefixOf] at hp
      simp only [Option.some.injEq, Prod.mk.injEq] at h
      obtain ⟨rfl, rfl⟩ := h
      simp [hpat]
    · cases h
  | cons c rest ih =>
    intro b a h
    simp only [splitFirst] at h
    split at h
    · rename_i hp
      simp only [Option.some.injEq, Prod.mk.injEq] at h
      obtain ⟨rfl, rfl⟩ := h
      simpa using isPrefixOf_eq_append hp
    · cases hrec : splitFirst pat rest with
      | none => rw [hrec] at h; cases h
      | some p =>
        rw [hrec] at h
        simp only [Option.map_some', Option.some.injEq, Prod.mk.injEq] at h
        obtain ⟨rfl, rfl⟩ := h
        simpa using congrArg (c :: ·) (ih hrec)

theorem splitFirst_length {pat s b a : PyStr} (h : splitFirst pat s = some (b, a)) :
    b.length + pat.length + a.length = s.length := by
  have := congrArg List.length (splitFirst_eq_append h)
  simp only [List.length_append] at this
  omega

theorem dropWhile_length_le (p : Char → Bool) (l : PyStr) :
    (l.dropWhile p).length ≤ l.length :=
  (List.dropWhile_sublist p (l := l)).length_le

theorem dropWhile_length_lt_of_takeWhile_ne (p : Char → Bool) (l : PyStr)
    (h : ¬ (l.takeWhile p).isEmpty) : (l.dropWhile p).length < l.length := by
  cases l with
  | nil => simp [List.takeWhile] at h
  | cons c t =>
    by_cases hc : p c
    · rw [List.dropWhile_cons, if_pos hc]
      exact Nat.lt_succ_of_le (dropWhile_length_le p t)
    · rw [List.takeWhile_cons, if_neg hc] at h
      simp at h

theorem paramMatchHere_rest_length {s k v rest : PyStr}
    (h : paramMatchHere s = some (k, v, rest)) : rest.length < s.length := by
  simp only [paramMatchHere] at h
  split at h
  · cases h
  · rename_i hkey
    split at h
    · rename_i s3 hcolon
      have h3 : s3.length < s.length := by
        have h1 : (s.dropWhile pyIsWordChar).length < s.length :=
          dropWhile_length_lt_of_takeWhile_ne _ _ hkey
        have h2 : ((s.dropWhile pyIsWordChar).dropWhile pyIsSpace).length ≤
            (s.dropWhile pyIsWordChar).length := dropWhile_length_le _ _
        have h4 : s3.length < ((s.dropWhile pyIsWordChar).dropWhile pyIsSpace).length := by
          rw [hcolon]; simp
        omega
      split at h
      · split at h
        · rename_i p hsplit
          have h6 : p.2.length ≤ s3.length := by
            have : p.1.length + closeDelim.length + p.2.length =
                ((s3.dropWhile pyIsSpace).drop openDelim.length).length :=
              splitFirst_length (by rw [hsplit])
            have h5 : ((s3.dropWhile pyIsSpace).drop openDelim.length).length ≤ s3.length := by
              have ha := dropWhile_length_le pyIsSpace s3
              have hb := List.length_drop openDelim.length (s3.dropWhile pyIsSpace)
              omega
            omega
          have h7 : (p.2.dropWhile pyIsSpace).length ≤ p.2.length := dropWhile_length_le _ _
          simp only [Option.some.injEq, Prod.mk.injEq] at h
          obtain ⟨-, -, rfl⟩ := h
          split
          · have := List.length_tail (p.2.dropWhile pyIsSpace)
            omega
          · omega
        · cases h
      · cases h
    · cases h

/-- `PARAM_REGEX.finditer`: scan left to right; at each position attempt an
anchored match, on success emit the captures and resume after the match, on
failure advance one character. -/
def findParams (s : PyStr) : List (PyStr × PyStr) :=
  match s with
  | [] => []
  | c :: rest =>
    match hm : paramMatchHere (c :: rest) with
    | some (k, v, s') => (k, v) :: findParams s'
    | none => findParams rest
termination_by s.length
decreasing_by
  · exact paramMatchHere_rest_length hm
  · simp

/-- `ToolCall` dataclass of `tool_call_parser.py`: name, string argument
map, and the `archery` fire-and-forget flag. -/
structure ToolCall where
  name : PyStr
  args : List (PyStr × PyStr)
  archery : Bool
deriving DecidableEq, Repr

/-- Python `dict` assignment `m[k] = v`: update in place when the key is
present, append otherwise. -/
def dictInsert (m : List (PyStr × PyStr)) (k v : PyStr) : List (PyStr × PyStr) :=
  if m.any fun p => p.1 = k then m.map fun p => if p.1 = k then (k, v) else p
  else m ++ [(k, v)]

/-- Accumulator of the loop over regex matches in
`ToolCallParser._parse_block`. -/
structure BlockAcc where
  args : List (PyStr × PyStr)
  toolName : Option PyStr
  isArchery : Bool

/-- The body of the match loop of `ToolCallParser._parse_block`: strip the
value, then dispatch on the reserved keys `tool_name` and `archery`. -/
def blockStep (acc : BlockAcc) (kv : PyStr × PyStr) : BlockAcc :=
  if kv.1 = ("tool_name".data : PyStr) then { acc with toolName := some (pyStrip kv.2) }
  else if kv.1 = ("archery".data : PyStr) then
    { acc with isArchery :=
        pyStrip kv.2 = ("true".data : PyStr) || pyStrip kv.2 = ("no_reply".data : PyStr) }
  else { acc with args := dictInsert acc.args kv.1 (pyStrip kv.2) }

/-- `ToolCallParser._parse_block`: run the parameter regex over the block
content, fold the matches, and return a `ToolCall` only when a truthy
(non-empty) `tool_name` was captured. -/
def parseBlock (blockContent : PyStr) : Option ToolCall :=
  let acc := (findParams blockContent).foldl blockStep ⟨[], none, false⟩
  match acc.toolName with
  | some n => if n.isEmpty then none else some ⟨n, acc.args, acc.isArchery⟩
  | none => none

/-- `ToolCallParser.MARKER_START`. -/
def markerStart : PyStr := "<<<[TOOL_REQUEST]>>>".data

/-- `ToolCallParser.MARKER_END`. -/
def markerEnd : PyStr := "<<<[END_TOOL_REQUEST]>>>".data

theorem splitFirst_some_length_lt {pat s : PyStr} {p : PyStr × PyStr} (hpat : pat ≠ [])
    (h : splitFirst pat s = some p) : p.2.length < s.length := by
  obtain ⟨b, a⟩ := p
  show a.length < s.length
  have := splitFirst_length h
  have : 0 < pat.length := List.length_pos.2 hpat
  omega

/-- The `while search_offset < len(content)` loop of `ToolCallParser.parse`,
expressed on the suffix of the content from `search_offset`: find the next
start marker, then the next end marker after it; a start marker without an
end marker just advances the search past that start marker. -/
def parseLoop (content : PyStr) : List ToolCall :=
  match hs : splitFirst markerStart content with
  | none => []
  | some st =>
    match he : splitFirst markerEnd st.2 with
    | none => parseLoop st.2
    | some en =>
      match parseBlock (pyStrip en.1) with
      | some tc => tc :: parseLoop en.2
      | none => parseLoop en.2
termination_by content.length
decreasing_by
  all_goals
  first
  | exact splitFirst_some_length_lt (by decide) hs
  | (have h1 : st.2.length < content.length := splitFirst_some_length_lt (by decide) hs
     have h2 : en.2.length < st.2.length := splitFirst_some_length_lt (by decide) he
     omega)

/-- `ToolCallParser.parse`: guard against empty content and globally absent
markers, then run the scan loop. -/
def parse (content : PyStr) : List ToolCall :=
  if content.isEmpty then []
  else if !containsSub markerStart content then []
  else if !containsSub markerEnd content then []
  else parseLoop content

/-! ### JSON values and the executor (`tool_executor.py`, `plugin.py`) -/

/-- JSON values as produced by `json.loads`. -/
inductive Json where
  | null : Json
  | bool : Bool → Json
  | num : Int → Json
  | str : PyStr → Json
  | arr : List Json → Json
  | obj : List (PyStr × Json) → Json

/-- `d.get(key)` on a JSON object's key/value list. -/
def jsonGet (kvs : List (PyStr × Json)) (key : PyStr) : Option Json :=
  match kvs with
  | [] => none
  | (k, v) :: rest => if k = key then some v else jsonGet rest key

/-- Python `==` between a JSON value and a string: true exactly for an equal
string (comparing any non-string value with a string is `False`). -/
def jsonEqStr (j : Json) (s : PyStr) : Bool :=
  match j with
  | Json.str t => t = s
  | _ => false

/-- Python `repr()` of a `json.loads` value (string escaping omitted; the
payloads in this codebase contain no quotes or backslashes). -/
def jsonRepr (j : Json) : PyStr :=
  match j with
  | Json.null => "None".data
  | Json.bool true => "True".data
  | Json.bool false => "False".data
  | Json.num n => (toString n).data
  | Json.str s => '\'' :: (s ++ ['\''])
  | Json.arr xs => '[' :: (joinSep (", ".data) (xs.attach.map fun x => jsonRepr x.1) ++ [']'])
  | Json.obj kvs => '\x7b' :: (joinSep (", ".data)
      (kvs.attach.map fun x => '\'' :: (x.1.1 ++ ['\''] ++ ": ".data ++ jsonRepr x.1.2))
      ++ ['\x7d'])
decreasing_by
  · obtain ⟨j, hj⟩ := x
    have h1 := List.sizeOf_lt_of_mem hj
    simp at h1 ⊢
    omega
  · obtain ⟨⟨k, v⟩, hx⟩ := x
    have h1 := List.sizeOf_lt_of_mem hx
    simp at h1 ⊢
    omega

/-- Python `str()` of a `json.loads` value, as used inside f-strings. -/
def jsonDisplay (j : Json) : PyStr :=
  match j with
  | Json.str s => s
  | _ => jsonRepr j

/-- The Python type name of a JSON value, as it appears in an
`AttributeError` raised by calling `.get` on a non-dict. -/
def jsonTypeName (j : Json) : PyStr :=
  match j with
  | Json.null => "NoneType".data
  | Json.bool _ => "bool".data
  | Json.num _ => "int".data
  | Json.str _ => "str".data
  | Json.arr _ => "list".data
  | Json.obj _ => "dict".data

/-- The result dict produced by `ToolExecutor`: `success`, `content`,
`raw` (success only), `tool_name`, `error` (failure only). -/
structure ExecResult where
  success : Bool
  content : Json
  raw : Option Json
  tool_name : PyStr
  error : Option Json

/-- `ToolExecutor._create_error_result`. -/
def createErrorResult (toolName : PyStr) (message : Json) : ExecResult :=
  { success := false
    error := some message
    content := Json.str ("[错误] ".data ++ jsonDisplay message)
    raw := none
    tool_name := toolName }

/-- `ToolExecutor._process_result` on a dict result: success iff the
backend dict's `status` equals `"success"`; on success the `content` comes
from the `result` field (its `content` sub-field when that field is a dict
containing one), and `raw` is the whole backend dict. -/
def processResult (toolName : PyStr) (kvs : List (PyStr × Json)) : ExecResult :=
  if (jsonGet kvs ("status".data)).any fun j => jsonEqStr j ("success".data) then
    { success := true
      content :=
        match jsonGet kvs ("result".data) with
        | some (Json.obj rkvs) =>
          match jsonGet rkvs ("content".data) with
          | some c => c
          | none => Json.obj rkvs
        | some j => j
        | none => Json.null
      raw := some (Json.obj kvs)
      tool_name := toolName
      error := none }
  else
    createErrorResult toolName
      (match jsonGet kvs ("error".data) with
       | some e => e
       | none => Json.str ("未知错误".data))

/-- `ToolExecutor._process_result` as called inside the `try` of
`ToolExecutor.execute`: calling `.get` on a non-dict backend value raises an
`AttributeError`, which the surrounding handler turns into the
`执行错误` failure result. -/
def processResultSafe (toolName : PyStr) (result : Json) : ExecResult :=
  match result with
  | Json.obj kvs => processResult toolName kvs
  | j => createErrorResult toolName
      (Json.str ("执行错误: '".data ++ jsonTypeName j ++ "' object has no attribute 'get'".data))

/-- `ToolExecutor.execute`.  The plugin registry is the list of registered
plugin names; `processToolCall` abstracts
`PluginManager.process_tool_call`, with `Except.error` standing for a
raised exception carrying `str(e)`. -/
def executeToolCall (plugins : List PyStr)
    (processToolCall : PyStr → List (PyStr × PyStr) → Except PyStr Json)
    (tc : ToolCall) : ExecResult :=
  if tc.name ∈ plugins then
    match processToolCall tc.name tc.args with
    | Except.ok result => processResultSafe tc.name result
    | Except.error e => createErrorResult tc.name (Json.str ("执行错误: ".data ++ e))
  else
    createErrorResult tc.name
      (Json.str ("未找到名为 \"".data ++ tc.name ++ "\" 的插件".data))

/-! ### The stdio subprocess backend (`PluginManager._execute_stdio_plugin`) -/

/-- Operations performed on the spawned process object. -/
inductive ProcAction where
  | kill : ProcAction
  | wait : ProcAction
deriving DecidableEq, Repr

/-- How the spawned process behaved under `asyncio.wait_for`: either the
wait timed out, or the process exited with a return code, error-stream
text, and an output stream whose `json.loads` outcome is given. -/
inductive ProcBehavior where
  | timeout : ProcBehavior
  | exited : Int → PyStr → Except PyStr Json → ProcBehavior

/-- The `{"status": "error", "error": msg}` dict returned on the failure
paths of `_execute_stdio_plugin`. -/
def stdioErrorObj (msg : PyStr) : Json :=
  Json.obj [("status".data, Json.str ("error".data)), ("error".data, Json.str msg)]

/-- `PluginManager._execute_stdio_plugin` from the point where the process
has been spawned: the actions taken on the process and the dict returned.
On timeout the process is killed and then reaped; on normal exit a non-zero
return code yields a failure dict carrying the error-stream text (or
`"Unknown error"` when that stream is empty), an unparsable output stream
yields a failure dict naming the JSON decode error, and a parsed output is
returned as-is. -/
def executeStdioWait (pluginName : PyStr) (behavior : ProcBehavior) :
    List ProcAction × Json :=
  match behavior with
  | ProcBehavior.timeout =>
    ([ProcAction.kill, ProcAction.wait],
     stdioErrorObj ("Plugin '".data ++ pluginName ++ "' execution timeout".data))
  | ProcBehavior.exited returncode stderrText stdoutParse =>
    if returncode ≠ 0 then
      ([], stdioErrorObj ("Plugin '".data ++ pluginName ++ "' failed: ".data ++
        (if stderrText.isEmpty then "Unknown error".data else stderrText)))
    else
      match stdoutParse with
      | Except.ok j => ([], j)
      | Except.error e =>
        ([], stdioErrorObj ("Invalid JSON output from plugin: ".data ++ e))

/-- `plugin.get("communication", {}).get("timeout", 60000)`: the stdio
timeout in milliseconds read from the plugin manifest, with its default. -/
def stdioTimeoutMs (manifest : List (PyStr × Json)) : Json :=
  match jsonGet manifest ("communication".data) with
  | some (Json.obj ckvs) =>
    match jsonGet ckvs ("timeout".data) with
    | some t => t
    | none => Json.num 60000
  | _ => Json.num 60000

/-! ### The orchestration loop (`ChatService.chat_stream`) -/

/-- The in-stream tool-detection state of one round of
`ChatService.chat_stream`: `in_tool_call`, `current_tool_content`, and the
accumulated `tool_calls`. -/
structure ScanState where
  inToolCall : Bool
  currentToolContent : PyStr
  toolCalls : List ToolCall
deriving DecidableEq, Repr

/-- One iteration of the `for chunk in ...generate_response_stream` body,
restricted to its tool-detection effect: a chunk containing the start
marker (re)sets `current_tool_content` to the chunk itself; while
`in_tool_call`, the chunk is then appended to `current_tool_content`; when
the end marker appears in that buffer, the buffer is parsed, the parsed
calls are appended to `tool_calls`, and the buffer is cleared. -/
def scanStep (st : ScanState) (chunk : PyStr) : ScanState :=
  let st1 := if containsSub markerStart chunk then
    { st with inToolCall := true, currentToolContent := chunk } else st
  if st1.inToolCall then
    let cur := st1.currentToolContent ++ chunk
    if containsSub markerEnd cur then
      { inToolCall := false, currentToolContent := [],
        toolCalls := st1.toolCalls ++ parse cur }
    else { st1 with currentToolContent := cur }
  else st1

/-- The full per-chunk state of one round: `response_chunks`, the chunks
yielded to the caller, and the tool-detection state. -/
structure RoundOutput where
  responseChunks : List PyStr
  yields : List PyStr
  scan : ScanState
deriving DecidableEq, Repr

/-- One iteration of the `for chunk ...` loop: append the chunk to
`response_chunks`, run the tool detection, and yield the chunk unmodified. -/
def roundStep (st : RoundOutput) (chunk : PyStr) : RoundOutput :=
  { responseChunks := st.responseChunks ++ [chunk]
    yields := st.yields ++ [chunk]
    scan := scanStep st.scan chunk }

/-- One round's chunk loop over the whole model stream. -/
def runRound (chunks : List PyStr) : RoundOutput :=
  chunks.foldl roundStep ⟨[], [], ⟨false, [], []⟩⟩

/-- The tool calls a round ends up with: the in-stream detections, plus the
post-stream fallback that re-parses the full response when the start marker
is present but the in-stream scan found nothing. -/
def finalRoundCalls (ro : RoundOutput) : List ToolCall :=
  let full := joinAll ro.responseChunks
  if containsSub markerStart full && ro.scan.toolCalls.isEmpty then parse full
  else ro.scan.toolCalls

/-- A role/content conversation message. -/
structure ChatMessage where
  role : PyStr
  content : PyStr
deriving DecidableEq, Repr

/-- The per-result lines of `ChatService.format_tool_results`. -/
def resultLines (r : ExecResult) : List PyStr :=
  if r.success then
    [ "- 工具名称: ".data ++ r.tool_name
    , "- 执行状态: success".data
    , "- 返回内容: ".data ++
        (let c := jsonDisplay r.content
         if 1000 < c.length then c.take 1000 ++ "...".data else c) ]
  else
    [ "- 工具名称: ".data ++ r.tool_name
    , "- 执行状态: failed".data
    , "- 错误信息: ".data ++
        jsonDisplay (match r.error with | some e => e | none => Json.str ("未知错误".data)) ]

/-- `ChatService.format_tool_results`. -/
def formatToolResults (results : List ExecResult) : PyStr :=
  joinSep ("\n".data)
    ("[[VCP调用结果信息汇总".data :: (results.flatMap resultLines ++ ["VCP调用结果结束]]".data]))

/-- The synthetic user-role turn `"<!-- VCP_TOOL_PAYLOAD -->\n" + summary`. -/
def toolResultMsg (summary : PyStr) : PyStr :=
  "<!-- VCP_TOOL_PAYLOAD -->\n".data ++ summary

/-- The `while iteration < max_iterations` loop of
`ChatService.chat_stream`, with the model client and the tool executor as
parameters.  Returns the list of rounds (each round being the chunks
yielded for it) and the final message list.  A round with no detected tool
calls ends the loop; otherwise the calls are executed in order, the full
raw response is appended as the assistant turn, the formatted summary as a
user turn, and the loop continues with the remaining iteration budget. -/
def chatLoop (llm : List ChatMessage → List PyStr) (execTool : ToolCall → ExecResult) :
    Nat → List ChatMessage → List (List PyStr) × List ChatMessage
  | 0, msgs => ([], msgs)
  | Nat.succ fuel, msgs =>
    let ro := runRound (llm msgs)
    let calls := finalRoundCalls ro
    if calls.isEmpty then ([ro.yields], msgs)
    else
      let results := calls.map execTool
      let msgs' := msgs ++
        [ ⟨"assistant".data, joinAll ro.responseChunks⟩
        , ⟨"user".data, toolResultMsg (formatToolResults results)⟩ ]
      let r := chatLoop llm execTool fuel msgs'
      (ro.yields :: r.1, r.2)

/-- The text a caller of `chat_stream` receives: all yielded chunks of all
rounds, concatenated in order. -/
def transcriptText (rounds : List (List PyStr)) : PyStr :=
  joinAll (rounds.map joinAll)

/-! ### Basic lemmas about the string model -/

theorem isPrefixOf_append_self (pat t : PyStr) : pat.isPrefixOf (pat ++ t) = true :=
  List.isPrefixOf_iff_prefix.2 (List.prefix_append pat t)

theorem takeWhile_all_append {p : Char → Bool} {k : PyStr} {x : Char} {r : PyStr}
    (hk : ∀ c ∈ k, p c = true) (hx : p x = false) :
    (k ++ x :: r).takeWhile p = k := by
  induction k with
  | nil => simp [List.takeWhile_cons, hx]
  | cons a t ih =>
    simp only [List.cons_append, List.takeWhile_cons, hk a (by simp)]
    simp [ih fun c hc => hk c (by simp [hc])]

theorem dropWhile_all_append {p : Char → Bool} {k : PyStr} {x : Char} {r : PyStr}
    (hk : ∀ c ∈ k, p c = true) (hx : p x = false) :
    (k ++ x :: r).dropWhile p = x :: r := by
  induction k with
  | nil => simp [List.dropWhile_cons, hx]
  | cons a t ih =>
    simp only [List.cons_append, List.dropWhile_cons, hk a (by simp)]
    simp [ih fun c hc => hk c (by simp [hc])]

theorem dropWhile_eq_self_of_head {p : Char → Bool} {l : PyStr}
    (h : ∀ c ∈ l.head?, p c = false) : l.dropWhile p = l := by
  cases l with
  | nil => rfl
  | cons c t => rw [List.dropWhile_cons, if_neg (by simp [h c (by simp)])]

theorem containsSub_iff {pat s : PyStr} :
    containsSub pat s = true ↔ ∃ x y, s = x ++ pat ++ y := by
  induction s with
  | nil =>
    simp only [containsSub, List.isEmpty_iff]
    constructor
    · rintro rfl; exact ⟨[], [], rfl⟩
    · rintro ⟨x, y, hxy⟩
      have hl := congrArg List.length hxy
      simp only [List.length_nil, List.length_append] at hl
      have : pat.length = 0 := by omega
      exact List.length_eq_zero.1 this
  | cons c rest ih =>
    simp only [containsSub, Bool.or_eq_true]
    constructor
    · rintro (hp | hc)
      · obtain ⟨t, ht⟩ := List.isPrefixOf_iff_prefix.1 hp
        exact ⟨[], t, by simp [ht.symm]⟩
      · obtain ⟨x, y, rfl⟩ := ih.1 hc
        exact ⟨c :: x, y, by simp⟩
    · rintro ⟨x, y, hxy⟩
      cases x with
      | nil =>
        left
        simp only [List.nil_append] at hxy
        rw [hxy]
        exact isPrefixOf_append_self pat y
      | cons a t =>
        right
        apply ih.2
        refine ⟨t, y, ?_⟩
        simpa using congrArg List.tail hxy

theorem containsSub_sandwich (pat x y : PyStr) : containsSub pat (x ++ pat ++ y) = true :=
  containsSub_iff.2 ⟨x, y, rfl⟩

theorem containsSub_false_of_not_mem {pat s : PyStr} {a : Char}
    (hhead : pat.head? = some a) (hs : a ∉ s) : containsSub pat s = false := by
  cases h : containsSub pat s with
  | false => rfl
  | true =>
    exfalso
    obtain ⟨x, y, hxy⟩ := containsSub_iff.1 h
    cases pat with
    | nil => cases hhead
    | cons b t =>
      simp only [List.head?_cons, Option.some.injEq] at hhead
      subst hhead
      exact hs (by simp [hxy])

theorem splitFirst_none_of_not_contains {pat s : PyStr}
    (h : containsSub pat s = false) : splitFirst pat s = none := by
  induction s with
  | nil =>
    simp only [containsSub] at h
    simp only [splitFirst]
    rw [if_neg]
    intro hp
    cases pat with
    | nil => simp at h
    | cons b t => simp [List.isPrefixOf] at hp
  | cons c rest ih =>
    simp only [containsSub, Bool.or_eq_false_iff] at h
    simp only [splitFirst]
    rw [if_neg (by simp [h.1]), ih h.2]
    rfl

theorem splitFirst_prefix {pat s : PyStr} (h : pat.isPrefixOf s = true) :
    splitFirst pat s = some ([], s.drop pat.length) := by
  cases s with
  | nil =>
    have hpat : pat = [] := by
      cases pat with
      | nil => rfl
      | cons b t => simp [List.isPrefixOf] at h
    subst hpat
    simp [splitFirst]
  | cons c rest => simp [splitFirst, h]

theorem splitFirst_first_occurrence {pat : PyStr} {a : Char}
    (hhead : pat.head? = some a) :
    ∀ {pre rest : PyStr}, a ∉ pre → splitFirst pat (pre ++ (pat ++ rest)) = some (pre, rest) := by
  intro pre
  induction pre with
  | nil =>
    intro rest _
    rw [List.nil_append, splitFirst_prefix (isPrefixOf_append_self _ _), List.drop_left]
  | cons c p ih =>
    intro rest hnm
    have hca : c ≠ a := fun hca => hnm (by simp [hca])
    have hnp : a ∉ p := fun hm => hnm (by simp [hm])
    have hpfx : pat.isPrefixOf (c :: (p ++ (pat ++ rest))) = false := by
      cases pat with
      | nil => cases hhead
      | cons b t =>
        simp only [List.head?_cons, Option.some.injEq] at hhead
        show (b == c && t.isPrefixOf (p ++ (b :: t ++ rest))) = false
        have hbc : b ≠ c := by rw [hhead]; exact fun h => hca h.symm
        simp [hbc]
    rw [List.cons_append, splitFirst, if_neg (by simp [hpfx]), ih hnp]
    rfl

theorem containsSub_append_right {pat y : PyStr} (x : PyStr)
    (h : containsSub pat y = true) : containsSub pat (x ++ y) = true := by
  obtain ⟨u, v, rfl⟩ := containsSub_iff.1 h
  exact containsSub_iff.2 ⟨x ++ u, v, by simp⟩

/-- Unfolding equation for `parseLoop` in a form convenient for rewriting. -/
theorem parseLoop_eq (content : PyStr) :
    parseLoop content =
      match splitFirst markerStart content with
      | none => []
      | some st =>
        match splitFirst markerEnd st.2 with
        | none => parseLoop st.2
        | some en =>
          match parseBlock (pyStrip en.1) with
          | some tc => tc :: parseLoop en.2
          | none => parseLoop en.2 := by
  rw [parseLoop]
  split
  · rename_i heq
    rw [heq]
  · rename_i st heq
    rw [heq]
    dsimp only
    split
    · rename_i heq2
      rw [heq2]
    · rename_i en heq2
      rw [heq2]

theorem parseLoop_none {content : PyStr}
    (h : splitFirst markerStart content = none) : parseLoop content = [] := by
  rw [parseLoop_eq, h]

theorem parseLoop_no_end {content : PyStr} {st : PyStr × PyStr}
    (h1 : splitFirst markerStart content = some st)
    (h2 : splitFirst markerEnd st.2 = none) : parseLoop content = parseLoop st.2 := by
  rw [parseLoop_eq, h1]
  show (match splitFirst markerEnd st.2 with
    | none => parseLoop st.2
    | some en =>
      match parseBlock (pyStrip en.1) with
      | some tc => tc :: parseLoop en.2
      | none => parseLoop en.2) = _
  rw [h2]

theorem parseLoop_block {content : PyStr} {st en : PyStr × PyStr}
    (h1 : splitFirst markerStart content = some st)
    (h2 : splitFirst markerEnd st.2 = some en) :
    parseLoop content =
      match parseBlock (pyStrip en.1) with
      | some tc => tc :: parseLoop en.2
      | none => parseLoop en.2 := by
  rw [parseLoop_eq, h1]
  show (match splitFirst markerEnd st.2 with
    | none => parseLoop st.2
    | some en =>
      match parseBlock (pyStrip en.1) with
      | some tc => tc :: parseLoop en.2
      | none => parseLoop en.2) = _
  rw [h2]

theorem parseLoop_nil_of_no_start {s : PyStr}
    (h : containsSub markerStart s = false) : parseLoop s = [] :=
  parseLoop_none (splitFirst_none_of_not_contains h)

theorem splitFirst_some_append {pat s : PyStr} {p : PyStr × PyStr}
    (h : splitFirst pat s = some p) : s = p.1 ++ pat ++ p.2 := by
  obtain ⟨b, a⟩ := p
  exact splitFirst_eq_append h

theorem parseLoop_nil_of_no_end {s : PyStr}
    (h : containsSub markerEnd s = false) : parseLoop s = [] := by
  induction s using parseLoop.induct with
  | case1 s hs => exact parseLoop_none hs
  | case2 s st hs he ih =>
    rw [parseLoop_no_end hs he]
    apply ih
    cases hc : containsSub markerEnd st.2 with
    | false => rfl
    | true =>
      exfalso
      rw [splitFirst_some_append hs] at h
      rw [List.append_assoc, containsSub_append_right st.1
        (containsSub_append_right markerStart hc)] at h
      cases h
  | case3 s st hs en he tc hp ih =>
    exfalso
    rw [splitFirst_some_append hs, splitFirst_some_append he] at h
    have hc : containsSub markerEnd (en.1 ++ markerEnd ++ en.2) = true :=
      containsSub_sandwich markerEnd en.1 en.2
    rw [List.append_assoc, containsSub_append_right st.1
      (containsSub_append_right markerStart hc)] at h
    cases h
  | case4 s st hs en he hp ih =>
    exfalso
    rw [splitFirst_some_append hs, splitFirst_some_append he] at h
    have hc : containsSub markerEnd (en.1 ++ markerEnd ++ en.2) = true :=
      containsSub_sandwich markerEnd en.1 en.2
    rw [List.append_assoc, containsSub_append_right st.1
      (containsSub_append_right markerStart hc)] at h
    cases h

/-- The guards of `parse` never change the scan loop's result. -/
theorem parse_eq_parseLoop (s : PyStr) : parse s = parseLoop s := by
  rw [parse]
  split
  · rename_i hemp
    rw [List.isEmpty_iff.1 hemp, parseLoop_nil_of_no_start (by decide)]
  · split
    · rename_i hns
      rw [parseLoop_nil_of_no_start (by simpa using hns)]
    · split
      · rename_i hne
        rw [parseLoop_nil_of_no_end (by simpa using hne)]
      · rfl

/-! ### Equations for `findParams` and the rendered-block lemmas -/

theorem findParams_nil : findParams [] = [] := by rw [findParams]

theorem findParams_cons (c : Char) (cs : PyStr) :
    findParams (c :: cs) =
      match paramMatchHere (c :: cs) with
      | some (k, v, s') => (k, v) :: findParams s'
      | none => findParams cs := by
  rw [findParams]
  split
  · rename_i k v s' heq
    rw [heq]
  · rename_i heq
    rw [heq]

theorem findParams_cons_match {s k v rest : PyStr} (hne : s ≠ [])
    (h : paramMatchHere s = some (k, v, rest)) :
    findParams s = (k, v) :: findParams rest := by
  cases s with
  | nil => exact absurd rfl hne
  | cons c cs =>
    rw [findParams_cons, h]

theorem findParams_cons_no_match {c : Char} {cs : PyStr}
    (h : paramMatchHere (c :: cs) = none) :
    findParams (c :: cs) = findParams cs := by
  rw [findParams_cons, h]

/-- The rendering `key:「始」value「末」` of one parameter. -/
def renderParam (k v : PyStr) : PyStr := k ++ (":".data ++ (openDelim ++ (v ++ closeDelim)))

/-- A well-formed rendered key: non-empty and made of word characters. -/
@[reducible] def wfKey (k : PyStr) : Prop := k ≠ [] ∧ ∀ c ∈ k, pyIsWordChar c = true

/-- A well-formed rendered value: free of the delimiter opener and of the
marker character, and already stripped. -/
@[reducible] def wfValue (v : PyStr) : Prop := '「' ∉ v ∧ '<' ∉ v ∧ pyStrip v = v

theorem paramMatchHere_render {k v : PyStr} (tail : PyStr)
    (hk : wfKey k) (hv : '「' ∉ v) :
    paramMatchHere (renderParam k v ++ tail) =
      some (k, v,
        if (tail.dropWhile pyIsSpace).head? = some ',' then (tail.dropWhile pyIsSpace).tail
        else tail.dropWhile pyIsSpace) := by
  obtain ⟨hk1, hk2⟩ := hk
  have hshape : renderParam k v ++ tail =
      k ++ ':' :: (openDelim ++ (v ++ (closeDelim ++ tail))) := by
    simp [renderParam]
  have hcw : pyIsWordChar ':' = false := by decide
  have htake : ((renderParam k v ++ tail).takeWhile pyIsWordChar) = k := by
    rw [hshape]; exact takeWhile_all_append hk2 hcw
  have hdropw : ((renderParam k v ++ tail).dropWhile pyIsWordChar) =
      ':' :: (openDelim ++ (v ++ (closeDelim ++ tail))) := by
    rw [hshape]; exact dropWhile_all_append hk2 hcw
  have hdrops : (((renderParam k v ++ tail).dropWhile pyIsWordChar).dropWhile pyIsSpace) =
      ':' :: (openDelim ++ (v ++ (closeDelim ++ tail))) := by
    rw [hdropw]
    exact dropWhile_eq_self_of_head (by intro c hc; simp at hc; subst hc; decide)
  have hs3 : ((openDelim ++ (v ++ (closeDelim ++ tail))).dropWhile pyIsSpace) =
      openDelim ++ (v ++ (closeDelim ++ tail)) :=
    dropWhile_eq_self_of_head (by
      intro c hc
      simp [openDelim] at hc
      subst hc
      decide)
  have hsplit : splitFirst closeDelim (v ++ (closeDelim ++ tail)) = some (v, tail) :=
    splitFirst_first_occurrence (a := '「') (by decide) hv
  rw [paramMatchHere]
  rw [htake, if_neg (by simp [hk1]), hdrops]
  show (if openDelim.isPrefixOf ((openDelim ++ (v ++ (closeDelim ++ tail))).dropWhile pyIsSpace)
      then _ else none) = _
  rw [hs3, if_pos (isPrefixOf_append_self _ _), List.drop_left, hsplit]

theorem joinSep_cons_cons (sep x y : PyStr) (rest : List PyStr) :
    joinSep sep (x :: y :: rest) = x ++ (sep ++ joinSep sep (y :: rest)) := by
  rw [joinSep]
  simp

theorem findParams_pieces :
    ∀ ps : List (PyStr × PyStr),
      (∀ p ∈ ps, wfKey p.1 ∧ '「' ∉ p.2) →
      findParams (joinSep (",".data) (ps.map fun p => renderParam p.1 p.2)) = ps := by
  intro ps
  induction ps with
  | nil => intro _; simpa [joinSep] using findParams_nil
  | cons p rest ih =>
    intro h
    obtain ⟨⟨hk1, hk2⟩, hv⟩ := h p (by simp)
    have hne : ∀ t : PyStr, renderParam p.1 p.2 ++ t ≠ [] := by
      intro t hcontra
      have := congrArg List.length hcontra
      simp [renderParam] at this
    cases rest with
    | nil =>
      have hmatch := paramMatchHere_render (k := p.1) (v := p.2) [] ⟨hk1, hk2⟩ hv
      have hmatch2 : paramMatchHere (renderParam p.1 p.2) = some (p.1, p.2, []) := by
        simpa using hmatch
      simp only [List.map_cons, List.map_nil, joinSep]
      rw [show renderParam p.1 p.2 = renderParam p.1 p.2 ++ [] by simp,
        findParams_cons_match (hne []) (by simpa using hmatch2), findParams_nil]
    | cons q qrest =>
      have hmatch := paramMatchHere_render (k := p.1) (v := p.2)
        (',' :: joinSep (",".data) ((q :: qrest).map fun p => renderParam p.1 p.2))
        ⟨hk1, hk2⟩ hv
      have hcomma : (((',' :: joinSep (",".data)
          ((q :: qrest).map fun p => renderParam p.1 p.2)) : PyStr).dropWhile pyIsSpace) =
          ',' :: joinSep (",".data) ((q :: qrest).map fun p => renderParam p.1 p.2) :=
        dropWhile_eq_self_of_head (by intro c hc; simp at hc; subst hc; decide)
      rw [hcomma] at hmatch
      simp only [List.head?_cons, List.tail_cons, reduceIte] at hmatch
      simp only [List.map_cons]
      rw [joinSep_cons_cons]
      have hassoc : renderParam p.1 p.2 ++ ((",".data : PyStr) ++
          joinSep (",".data) (renderParam q.1 q.2 :: qrest.map fun p => renderParam p.1 p.2)) =
          renderParam p.1 p.2 ++
            (',' :: joinSep (",".data) ((q :: qrest).map fun p => renderParam p.1 p.2)) := by
        simp
      rw [hassoc, findParams_cons_match (hne _) hmatch,
        ih fun p hp => h p (by simp [hp])]

/-! ### Strip lemmas -/

theorem head_dropWhile_false (p : Char → Bool) :
    ∀ s : PyStr, ∀ c ∈ (s.dropWhile p).head?, p c = false := by
  intro s
  induction s with
  | nil => intro c hc; cases hc
  | cons a t ih =>
    intro c hc
    rw [List.dropWhile_cons] at hc
    by_cases ha : p a
    · rw [if_pos ha] at hc
      exact ih c hc
    · rw [if_neg ha] at hc
      simp at hc
      subst hc
      simpa using ha

theorem pyStrip_eq_self {s : PyStr}
    (h1 : ∀ c ∈ s.head?, pyIsSpace c = false)
    (h2 : ∀ c ∈ s.getLast?, pyIsSpace c = false) : pyStrip s = s := by
  have hl : lstrip s = s := dropWhile_eq_self_of_head h1
  rw [pyStrip, hl, rstrip, dropWhile_eq_self_of_head, List.reverse_reverse]
  intro c hc
  rw [List.head?_reverse] at hc
  exact h2 c hc

theorem rstrip_prefix_decomp (y : PyStr) :
    y = rstrip y ++ (y.reverse.takeWhile pyIsSpace).reverse := by
  conv_lhs => rw [← List.reverse_reverse y,
    ← List.takeWhile_append_dropWhile pyIsSpace y.reverse]
  rw [List.reverse_append]
  rfl

theorem rstrip_idem (y : PyStr) : rstrip (rstrip y) = rstrip y := by
  simp only [rstrip, List.reverse_reverse, List.dropWhile_idempotent]

theorem lstrip_idem (y : PyStr) : lstrip (lstrip y) = lstrip y := by
  simp only [lstrip, List.dropWhile_idempotent]

theorem lstrip_rstrip_lstrip (s : PyStr) :
    lstrip (rstrip (lstrip s)) = rstrip (lstrip s) := by
  apply dropWhile_eq_self_of_head
  intro c hc
  cases hr : rstrip (lstrip s) with
  | nil => rw [hr] at hc; cases hc
  | cons a t =>
    rw [hr] at hc
    simp only [List.head?_cons, Option.mem_def, Option.some.injEq] at hc
    have hdec := rstrip_prefix_decomp (lstrip s)
    rw [hr] at hdec
    have hhead : (lstrip s).head? = some a := by
      rw [hdec]
      simp
    rw [← hc]
    exact head_dropWhile_false pyIsSpace s a (by simpa [lstrip] using hhead)

theorem pyStrip_idem (s : PyStr) : pyStrip (pyStrip s) = pyStrip s := by
  rw [pyStrip, pyStrip, lstrip_rstrip_lstrip, rstrip_idem]

/-! ### `_parse_block` fold lemmas -/

theorem foldl_blockStep_plain {ps : List (PyStr × PyStr)} :
    ∀ acc : BlockAcc,
      (∀ p ∈ ps, p.1 ≠ ("tool_name".data : PyStr) ∧ p.1 ≠ ("archery".data : PyStr)) →
      ps.foldl blockStep acc =
        ⟨ps.foldl (fun m p => dictInsert m p.1 (pyStrip p.2)) acc.args,
         acc.toolName, acc.isArchery⟩ := by
  induction ps with
  | nil => intro acc _; rfl
  | cons p rest ih =>
    intro acc h
    obtain ⟨h1, h2⟩ := h p (by simp)
    simp only [List.foldl_cons]
    rw [show blockStep acc p = { acc with args := dictInsert acc.args p.1 (pyStrip p.2) } by
      rw [blockStep, if_neg h1, if_neg h2]]
    exact ih _ fun q hq => h q (by simp [hq])

theorem foldl_dictInsert_fresh :
    ∀ (ps m : List (PyStr × PyStr)),
      (∀ p ∈ ps, (∀ q ∈ m, p.1 ≠ q.1) ∧ pyStrip p.2 = p.2) →
      (ps.map Prod.fst).Nodup →
      ps.foldl (fun m p => dictInsert m p.1 (pyStrip p.2)) m = m ++ ps := by
  intro ps
  induction ps with
  | nil => intro m _ _; simp
  | cons p rest ih =>
    intro m h hnodup
    obtain ⟨hfresh, hstrip⟩ := h p (by simp)
    have hins : dictInsert m p.1 (pyStrip p.2) = m ++ [p] := by
      rw [dictInsert, if_neg, hstrip]
      intro hany
      simp only [List.any_eq_true, decide_eq_true_eq] at hany
      obtain ⟨q, hq, hq1⟩ := hany
      exact hfresh q hq hq1.symm
    simp only [List.foldl_cons]
    rw [hins, ih (m ++ [p]) ?fresh ?nodup]
    · simp
    case fresh =>
      intro q hq
      refine ⟨?_, (h q (by simp [hq])).2⟩
      intro r hr
      rw [List.mem_append] at hr
      rcases hr with hr | hr
      · exact (h q (by simp [hq])).1 r hr
      · simp only [List.mem_singleton] at hr
        subst hr
        simp only [List.map_cons, List.nodup_cons] at hnodup
        intro hqr
        exact hnodup.1 (hqr ▸ List.mem_map_of_mem Prod.fst hq)
    case nodup =>
      simp only [List.map_cons, List.nodup_cons] at hnodup
      exact hnodup.2

/-! ### Rendered blocks and the parser round-trip -/

/-- The body text of a well-formed block: `tool_name:「始」name「末」`
followed by the other parameters, comma-separated. -/
def renderBody (name : PyStr) (ps : List (PyStr × PyStr)) : PyStr :=
  joinSep (",".data)
    (((("tool_name".data : PyStr), name) :: ps).map fun p => renderParam p.1 p.2)

/-- A block description: leading free text, the tool name, and the
key/value parameters. -/
def renderBlocks : List (PyStr × PyStr × List (PyStr × PyStr)) → PyStr → PyStr
  | [], post => post
  | (pre, name, ps) :: rest, post =>
    pre ++ (markerStart ++ (renderBody name ps ++ (markerEnd ++ renderBlocks rest post)))

/-- Well-formedness of one described block: marker-free leading text, a
non-empty well-formed name, word-character keys distinct from the reserved
ones and from each other, and delimiter-free stripped values. -/
@[reducible] def wfBlock (b : PyStr × PyStr × List (PyStr × PyStr)) : Prop :=
  '<' ∉ b.1 ∧ b.2.1 ≠ [] ∧ wfValue b.2.1 ∧
  (∀ p ∈ b.2.2, wfKey p.1 ∧ p.1 ≠ ("tool_name".data : PyStr) ∧
    p.1 ≠ ("archery".data : PyStr) ∧ wfValue p.2) ∧
  (b.2.2.map Prod.fst).Nodup

theorem parseBlock_renderBody {name : PyStr} {ps : List (PyStr × PyStr)}
    (hname : name ≠ []) (hnv : wfValue name)
    (hps : ∀ p ∈ ps, wfKey p.1 ∧ p.1 ≠ ("tool_name".data : PyStr) ∧
      p.1 ≠ ("archery".data : PyStr) ∧ wfValue p.2)
    (hnodup : (ps.map Prod.fst).Nodup) :
    parseBlock (renderBody name ps) = some ⟨name, ps, false⟩ := by
  have hfind : findParams (renderBody name ps) = (("tool_name".data : PyStr), name) :: ps := by
    rw [renderBody]
    apply findParams_pieces
    intro p hp
    simp only [List.mem_cons] at hp
    rcases hp with rfl | hp
    · refine ⟨⟨?_, ?_⟩, hnv.1⟩
      · show ("tool_name".data : PyStr) ≠ []
        decide
      · show ∀ c ∈ ("tool_name".data : PyStr), pyIsWordChar c = true
        decide
    · exact ⟨(hps p hp).1, (hps p hp).2.2.2.1⟩
  rw [parseBlock, hfind]
  simp only [List.foldl_cons]
  rw [show blockStep ⟨[], none, false⟩ (("tool_name".data : PyStr), name) =
      ⟨[], some (pyStrip name), false⟩ by rw [blockStep]; simp]
  rw [foldl_blockStep_plain _ fun p hp => ⟨(hps p hp).2.1, (hps p hp).2.2.1⟩]
  rw [foldl_dictInsert_fresh ps []
    (fun p hp => ⟨fun q hq => absurd hq (List.not_mem_nil q), (hps p hp).2.2.2.2.2⟩) hnodup]
  rw [hnv.2.2]
  simp [hname]

theorem mem_joinSep {sep : PyStr} {c : Char} :
    ∀ {xs : List PyStr}, c ∈ joinSep sep xs → c ∈ sep ∨ ∃ x ∈ xs, c ∈ x := by
  intro xs
  induction xs with
  | nil => intro h; cases h
  | cons x rest ih =>
    intro h
    cases rest with
    | nil =>
      simp only [joinSep] at h
      exact Or.inr ⟨x, by simp, h⟩
    | cons y q =>
      rw [joinSep_cons_cons] at h
      simp only [List.mem_append] at h
      rcases h with h | h | h
      · exact Or.inr ⟨x, by simp, h⟩
      · exact Or.inl h
      · rcases ih h with h' | ⟨z, hz, hcz⟩
        · exact Or.inl h'
        · exact Or.inr ⟨z, by simp [List.mem_cons.1 hz], hcz⟩

theorem not_lt_mem_renderBody {name : PyStr} {ps : List (PyStr × PyStr)}
    (hnv : '<' ∉ name)
    (hps : ∀ p ∈ ps, (∀ c ∈ p.1, pyIsWordChar c = true) ∧ '<' ∉ p.2) :
    '<' ∉ renderBody name ps := by
  intro hmem
  rcases mem_joinSep hmem with h | ⟨x, hx, hcx⟩
  · simp at h
  · simp only [List.mem_map, List.mem_cons] at hx
    obtain ⟨p, hp, rfl⟩ := hx
    simp only [renderParam, List.mem_append] at hcx
    rcases hp with rfl | hp
    · rcases hcx with h | h | h | h | h
      · simp at h
      · simp at h
      · exact absurd h (by decide)
      · exact hnv h
      · exact absurd h (by decide)
    · rcases hcx with h | h | h | h | h
      · have := (hps p hp).1 '<' h
        simp [pyIsWordChar] at this
      · simp at h
      · exact absurd h (by decide)
      · exact (hps p hp).2 h
      · exact absurd h (by decide)

theorem renderBody_head {name : PyStr} {ps : List (PyStr × PyStr)} :
    (renderBody name ps).head? = some 't' := by
  rw [renderBody]
  have hpiece : renderParam ("tool_name".data : PyStr) name =
      't' :: ("ool_name".data ++ (":".data ++ (openDelim ++ (name ++ closeDelim)))) := by
    simp [renderParam]
  cases hmap : ps.map fun p => renderParam p.1 p.2 with
  | nil =>
    simp only [List.map_cons, hmap]
    rw [joinSep, hpiece]
    rfl
  | cons x rest =>
    simp only [List.map_cons, hmap]
    rw [joinSep_cons_cons, hpiece]
    rfl

theorem joinSep_getLast_closeDelim :
    ∀ (xs : List PyStr), xs ≠ [] → (∀ x ∈ xs, x.getLast? = some '」') →
      (joinSep (",".data) xs).getLast? = some '」' := by
  intro xs
  induction xs with
  | nil => intro h _; exact absurd rfl h
  | cons x rest ih =>
    intro _ hall
    cases rest with
    | nil => simpa [joinSep] using hall x (by simp)
    | cons y q =>
      rw [joinSep_cons_cons]
      have hrest : (joinSep (",".data) (y :: q)).getLast? = some '」' :=
        ih (by simp) fun z hz => hall z (by simp [List.mem_cons.1 hz])
      have hne : joinSep (",".data) (y :: q) ≠ [] := by
        intro hcontra
        rw [hcontra] at hrest
        cases hrest
      rw [List.getLast?_append_of_ne_nil _ (by simp [hne]),
        List.getLast?_append_of_ne_nil _ hne]
      exact hrest

theorem renderParam_getLast (k v : PyStr) :
    (renderParam k v).getLast? = some '」' := by
  rw [renderParam]
  rw [List.getLast?_append_of_ne_nil, List.getLast?_append_of_ne_nil,
    List.getLast?_append_of_ne_nil, List.getLast?_append_of_ne_nil] <;> simp [closeDelim]

theorem pyStrip_renderBody (name : PyStr) (ps : List (PyStr × PyStr)) :
    pyStrip (renderBody name ps) = renderBody name ps := by
  apply pyStrip_eq_self
  · intro c hc
    rw [renderBody_head] at hc
    simp only [Option.mem_def, Option.some.injEq] at hc
    rw [← hc]
    decide
  · intro c hc
    rw [renderBody, joinSep_getLast_closeDelim _ (by simp) ?last] at hc
    · simp only [Option.mem_def, Option.some.injEq] at hc
      rw [← hc]
      decide
    case last =>
      intro x hx
      simp only [List.mem_map, List.mem_cons] at hx
      obtain ⟨p, _, rfl⟩ := hx
      exact renderParam_getLast _ _

/-- Round-trip: parsing a sequence of well-formed rendered blocks yields
exactly one `ToolCall` per block, in source order, with the declared name
and key/value pairs. -/
theorem parse_renderBlocks :
    ∀ (blocks : List (PyStr × PyStr × List (PyStr × PyStr))) (post : PyStr),
      (∀ b ∈ blocks, wfBlock b) → '<' ∉ post →
      parse (renderBlocks blocks post) =
        blocks.map fun b => ⟨b.2.1, b.2.2, false⟩ := by
  intro blocks
  induction blocks with
  | nil =>
    intro post _ hpost
    rw [renderBlocks, parse_eq_parseLoop]
    simpa using parseLoop_nil_of_no_start
      (containsSub_false_of_not_mem (a := '<') (by decide) hpost)
  | cons b rest ih =>
    intro post hwf hpost
    obtain ⟨pre, name, ps⟩ := b
    obtain ⟨hpre, hname, hnv, hps, hnodup⟩ := hwf (pre, name, ps) (by simp)
    rw [renderBlocks, parse_eq_parseLoop]
    have hsplit1 : splitFirst markerStart
        (pre ++ (markerStart ++ (renderBody name ps ++ (markerEnd ++ renderBlocks rest post)))) =
        some (pre, renderBody name ps ++ (markerEnd ++ renderBlocks rest post)) :=
      splitFirst_first_occurrence (a := '<') (by decide) hpre
    have hbody : '<' ∉ renderBody name ps :=
      not_lt_mem_renderBody hnv.2.1 fun p hp => ⟨(hps p hp).1.2, (hps p hp).2.2.2.2.1⟩
    have hsplit2 : splitFirst markerEnd
        (renderBody name ps ++ (markerEnd ++ renderBlocks rest post)) =
        some (renderBody name ps, renderBlocks rest post) :=
      splitFirst_first_occurrence (a := '<') (by decide) hbody
    rw [parseLoop_block hsplit1 hsplit2]
    show (match parseBlock (pyStrip (renderBody name ps)) with
      | some tc => tc :: parseLoop (renderBlocks rest post)
      | none => parseLoop (renderBlocks rest post)) = _
    rw [pyStrip_renderBody, parseBlock_renderBody hname hnv hps hnodup]
    rw [show parseLoop (renderBlocks rest post) = parse (renderBlocks rest post) from
      (parse_eq_parseLoop _).symm]
    rw [ih post (fun b hb => hwf b (by simp [hb])) hpost]
    rfl

/-! ### Fold characterizations for the reserved keys -/

/-- The value of the last `archery` parameter among the regex matches. -/
def lastArcheryValue (ms : List (PyStr × PyStr)) : Option PyStr :=
  ((ms.filter fun p => p.1 = ("archery".data : PyStr)).map Prod.snd).getLast?

theorem lastArcheryValue_cons (m : PyStr × PyStr) (ms : List (PyStr × PyStr)) :
    lastArcheryValue (m :: ms) =
      match lastArcheryValue ms with
      | some v => some v
      | none => if m.1 = ("archery".data : PyStr) then some m.2 else none := by
  by_cases hm : m.1 = ("archery".data : PyStr)
  · rw [lastArcheryValue, List.filter_cons, if_pos (by simpa using hm), List.map_cons]
    cases hl : (ms.filter fun p => p.1 = ("archery".data : PyStr)).map Prod.snd with
    | nil =>
      rw [show lastArcheryValue ms = none by rw [lastArcheryValue, hl]; rfl]
      simp [hm]
    | cons x l =>
      rw [List.getLast?_cons_cons,
        show lastArcheryValue ms = (x :: l).getLast? by rw [lastArcheryValue, hl]]
      cases hgl : (x :: l).getLast? with
      | none => exact absurd hgl (by simp)
      | some v => rfl
  · rw [lastArcheryValue, List.filter_cons, if_neg (by simpa using hm)]
    rw [show ((ms.filter fun p => p.1 = ("archery".data : PyStr)).map Prod.snd).getLast? =
      lastArcheryValue ms from rfl]
    cases lastArcheryValue ms with
    | none => simp [hm]
    | some v => rfl

theorem foldl_blockStep_archery (ms : List (PyStr × PyStr)) :
    ∀ acc : BlockAcc,
      (ms.foldl blockStep acc).isArchery =
        match lastArcheryValue ms with
        | some v =>
          (pyStrip v = ("true".data : PyStr) || pyStrip v = ("no_reply".data : PyStr))
        | none => acc.isArchery := by
  induction ms with
  | nil => intro acc; rfl
  | cons m rest ih =>
    intro acc
    rw [List.foldl_cons, ih, lastArcheryValue_cons]
    cases hl : lastArcheryValue rest with
    | some v => rfl
    | none =>
      show (blockStep acc m).isArchery = _
      rw [blockStep]
      by_cases h1 : m.1 = ("tool_name".data : PyStr)
      · rw [if_pos h1, if_neg (by rw [h1]; decide)]
      · rw [if_neg h1]
        by_cases h2 : m.1 = ("archery".data : PyStr)
        · rw [if_pos h2, if_pos h2]
        · rw [if_neg h2, if_neg h2]

theorem foldl_blockStep_toolName_frozen (ms : List (PyStr × PyStr)) :
    ∀ acc : BlockAcc, (∀ p ∈ ms, p.1 ≠ ("tool_name".data : PyStr)) →
      (ms.foldl blockStep acc).toolName = acc.toolName := by
  induction ms with
  | nil => intro acc _; rfl
  | cons m rest ih =>
    intro acc h
    rw [List.foldl_cons, ih _ fun p hp => h p (by simp [hp])]
    rw [blockStep, if_neg (h m (by simp))]
    by_cases h2 : m.1 = ("archery".data : PyStr)
    · rw [if_pos h2]
    · rw [if_neg h2]

theorem parseBlock_none_of_no_tool_name {s : PyStr}
    (h : ∀ p ∈ findParams s, p.1 ≠ ("tool_name".data : PyStr)) :
    parseBlock s = none := by
  rw [parseBlock]
  have := foldl_blockStep_toolName_frozen (findParams s) ⟨[], none, false⟩ h
  rw [this]

theorem mem_dictInsert {m : List (PyStr × PyStr)} {k v : PyStr} {q : PyStr × PyStr}
    (h : q ∈ dictInsert m k v) : q = (k, v) ∨ q ∈ m := by
  rw [dictInsert] at h
  split at h
  · rw [List.mem_map] at h
    obtain ⟨r, hr, hq⟩ := h
    by_cases hrk : r.1 = k
    · rw [if_pos hrk] at hq
      exact Or.inl hq.symm
    · rw [if_neg hrk] at hq
      exact Or.inr (hq ▸ hr)
  · rw [List.mem_append, List.mem_singleton] at h
    rcases h with h | h
    · exact Or.inr h
    · exact Or.inl h

theorem foldl_blockStep_args_invariant (ms : List (PyStr × PyStr)) :
    ∀ acc : BlockAcc,
      (∀ p ∈ acc.args, p.1 ≠ ("tool_name".data : PyStr) ∧
        p.1 ≠ ("archery".data : PyStr) ∧ pyStrip p.2 = p.2) →
      ∀ p ∈ (ms.foldl blockStep acc).args,
        p.1 ≠ ("tool_name".data : PyStr) ∧
        p.1 ≠ ("archery".data : PyStr) ∧ pyStrip p.2 = p.2 := by
  induction ms with
  | nil => intro acc hacc; exact hacc
  | cons m rest ih =>
    intro acc hacc
    rw [List.foldl_cons]
    apply ih
    intro p hp
    rw [blockStep] at hp
    by_cases h1 : m.1 = ("tool_name".data : PyStr)
    · rw [if_pos h1] at hp
      exact hacc p hp
    · rw [if_neg h1] at hp
      by_cases h2 : m.1 = ("archery".data : PyStr)
      · rw [if_pos h2] at hp
        exact hacc p hp
      · rw [if_neg h2] at hp
        rcases mem_dictInsert hp with rfl | hp'
        · exact ⟨h1, h2, pyStrip_idem m.2⟩
        · exact hacc p hp'

theorem parseBlock_props {s : PyStr} {tc : ToolCall} (h : parseBlock s = some tc) :
    tc.name ≠ [] ∧ ∀ p ∈ tc.args,
      p.1 ≠ ("tool_name".data : PyStr) ∧
      p.1 ≠ ("archery".data : PyStr) ∧ pyStrip p.2 = p.2 := by
  rw [parseBlock] at h
  split at h
  · rename_i n hn
    split at h
    · cases h
    · rename_i hne
      simp only [Option.some.injEq] at h
      subst h
      refine ⟨by simpa using hne, ?_⟩
      exact foldl_blockStep_args_invariant (findParams s) ⟨[], none, false⟩
        (fun p hp => absurd hp (List.not_mem_nil p))
  · cases h

theorem parse_mem_props {content : PyStr} {tc : ToolCall} (h : tc ∈ parse content) :
    tc.name ≠ [] ∧ ∀ p ∈ tc.args,
      p.1 ≠ ("tool_name".data : PyStr) ∧
      p.1 ≠ ("archery".data : PyStr) ∧ pyStrip p.2 = p.2 := by
  rw [parse_eq_parseLoop] at h
  induction content using parseLoop.induct with
  | case1 s hs => rw [parseLoop_none hs] at h; cases h
  | case2 s st hs he ih => rw [parseLoop_no_end hs he] at h; exact ih h
  | case3 s st hs en he tc' hp ih =>
    rw [parseLoop_block hs he] at h
    rw [hp] at h
    simp only [List.mem_cons] at h
    rcases h with rfl | h
    · exact parseBlock_props hp
    · exact ih h
  | case4 s st hs en he hp ih =>
    rw [parseLoop_block hs he] at h
    rw [hp] at h
    exact ih h

/-! ### Structural evaluation twins

`findParams` and `parseLoop` are defined by well-founded recursion, which
the kernel does not unfold, so concrete instances cannot be settled by
`decide` directly.  These fuel-indexed twins compute the same functions by
structural recursion; the agreement theorems below let concrete goals be
transported to the computable versions. -/

def findParamsF : Nat → PyStr → List (PyStr × PyStr)
  | 0, _ => []
  | _ + 1, [] => []
  | fuel + 1, c :: rest =>
    match paramMatchHere (c :: rest) with
    | some (k, v, s') => (k, v) :: findParamsF fuel s'
    | none => findParamsF fuel rest

theorem findParamsF_agree :
    ∀ (fuel : Nat) (s : PyStr), s.length < fuel → findParamsF fuel s = findParams s := by
  intro fuel
  induction fuel with
  | zero => intro s h; omega
  | succ fuel ih =>
    intro s h
    cases s with
    | nil => rw [findParams_nil]; rfl
    | cons c rest =>
      rw [findParams_cons]
      show (match paramMatchHere (c :: rest) with
        | some (k, v, s') => (k, v) :: findParamsF fuel s'
        | none => findParamsF fuel rest) = _
      cases hm : paramMatchHere (c :: rest) with
      | some kvs =>
        obtain ⟨k, v, s'⟩ := kvs
        have hlen : s'.length < fuel := by
          have := paramMatchHere_rest_length hm
          simp only [List.length_cons] at this h ⊢
          omega
        dsimp only
        rw [ih s' hlen]
      | none =>
        have hlen : rest.length < fuel := by
          simp only [List.length_cons] at h
          omega
        dsimp only
        rw [ih rest hlen]

/-- `parseBlock` with the computable parameter scan. -/
def parseBlockF (blockContent : PyStr) : Option ToolCall :=
  let acc := (findParamsF (blockContent.length + 1) blockContent).foldl blockStep ⟨[], none, false⟩
  match acc.toolName with
  | some n => if n.isEmpty then none else some ⟨n, acc.args, acc.isArchery⟩
  | none => none

theorem parseBlockF_agree (s : PyStr) : parseBlockF s = parseBlock s := by
  rw [parseBlockF, parseBlock, findParamsF_agree _ _ (Nat.lt_succ_self _)]

def parseLoopF : Nat → PyStr → List ToolCall
  | 0, _ => []
  | fuel + 1, content =>
    match splitFirst markerStart content with
    | none => []
    | some st =>
      match splitFirst markerEnd st.2 with
      | none => parseLoopF fuel st.2
      | some en =>
        match parseBlockF (pyStrip en.1) with
        | some tc => tc :: parseLoopF fuel en.2
        | none => parseLoopF fuel en.2

theorem parseLoopF_agree :
    ∀ (fuel : Nat) (s : PyStr), s.length < fuel → parseLoopF fuel s = parseLoop s := by
  intro fuel
  induction fuel with
  | zero => intro s h; omega
  | succ fuel ih =>
    intro s h
    show (match splitFirst markerStart s with
      | none => []
      | some st =>
        match splitFirst markerEnd st.2 with
        | none => parseLoopF fuel st.2
        | some en =>
          match parseBlockF (pyStrip en.1) with
          | some tc => tc :: parseLoopF fuel en.2
          | none => parseLoopF fuel en.2) = parseLoop s
    cases hsp : splitFirst markerStart s with
    | none => rw [parseLoop_none hsp]
    | some st =>
      have hst : st.2.length < fuel := by
        have := splitFirst_some_length_lt (by decide) hsp
        omega
      dsimp only
      cases hsp2 : splitFirst markerEnd st.2 with
      | none =>
        dsimp only
        rw [parseLoop_no_end hsp hsp2, ih st.2 hst]
      | some en =>
        have hen : en.2.length < fuel := by
          have := splitFirst_some_length_lt (by decide) hsp2
          omega
        dsimp only
        rw [parseLoop_block hsp hsp2, parseBlockF_agree]
        cases parseBlock (pyStrip en.1) with
        | some tc => dsimp only; rw [ih en.2 hen]
        | none => dsimp only; rw [ih en.2 hen]

/-- `parse` with the computable loop. -/
def parseF (content : PyStr) : List ToolCall :=
  if content.isEmpty then []
  else if !containsSub markerStart content then []
  else if !containsSub markerEnd content then []
  else parseLoopF (content.length + 1) content

theorem parseF_agree (s : PyStr) : parseF s = parse s := by
  rw [parseF, parse, parseLoopF_agree _ _ (Nat.lt_succ_self _)]

/-- `scanStep` with the computable parser. -/
def scanStepF (st : ScanState) (chunk : PyStr) : ScanState :=
  let st1 := if containsSub markerStart chunk then
    { st with inToolCall := true, currentToolContent := chunk } else st
  if st1.inToolCall then
    let cur := st1.currentToolContent ++ chunk
    if containsSub markerEnd cur then
      { inToolCall := false, currentToolContent := [],
        toolCalls := st1.toolCalls ++ parseF cur }
    else { st1 with currentToolContent := cur }
  else st1

theorem scanStepF_agree (st : ScanState) (chunk : PyStr) :
    scanStepF st chunk = scanStep st chunk := by
  simp only [scanStepF, scanStep, parseF_agree]

def roundStepF (st : RoundOutput) (chunk : PyStr) : RoundOutput :=
  { responseChunks := st.responseChunks ++ [chunk]
    yields := st.yields ++ [chunk]
    scan := scanStepF st.scan chunk }

def runRoundF (chunks : List PyStr) : RoundOutput :=
  chunks.foldl roundStepF ⟨[], [], ⟨false, [], []⟩⟩

theorem runRoundF_agree (chunks : List PyStr) : runRoundF chunks = runRound chunks := by
  rw [runRoundF, runRound,
    show roundStepF = roundStep by
      funext st chunk
      rw [roundStepF, roundStep, scanStepF_agree]]

def finalRoundCallsF (ro : RoundOutput) : List ToolCall :=
  let full := joinAll ro.responseChunks
  if containsSub markerStart full && ro.scan.toolCalls.isEmpty then parseF full
  else ro.scan.toolCalls

theorem finalRoundCallsF_agree (ro : RoundOutput) :
    finalRoundCallsF ro = finalRoundCalls ro := by
  simp only [finalRoundCallsF, finalRoundCalls, parseF_agree]

/-! ### Claim theorems -/

/-- C1: the claim states that feeding chunks one at a time through the
orchestration loop's incremental scan yields exactly the Invocations that
parsing the full concatenated string yields.  This theorem evaluates the
embedded code at the failing input: a single chunk holding one complete
block.  Because `chat_stream` seeds `current_tool_content` with the chunk
and then appends the same chunk again, the scan parses the block twice and
yields the invocation twice, while whole-buffer parsing yields it once. -/
theorem c1_streaming_scan_duplicates_single_chunk_block :
    finalRoundCalls (runRound
      [("<<<[TOOL_REQUEST]>>>tool_name:「始」Echo「末」,msg:「始」hi「末」<<<[END_TOOL_REQUEST]>>>".data)]) =
      [⟨"Echo".data, [("msg".data, "hi".data)], false⟩,
       ⟨"Echo".data, [("msg".data, "hi".data)], false⟩] ∧
    parse ("<<<[TOOL_REQUEST]>>>tool_name:「始」Echo「末」,msg:「始」hi「末」<<<[END_TOOL_REQUEST]>>>".data) =
      [⟨"Echo".data, [("msg".data, "hi".data)], false⟩] := by
  constructor
  · rw [← runRoundF_agree, ← finalRoundCallsF_agree]
    decide
  · rw [← parseF_agree]
    decide

/-- C4: for every string containing complete, well-formed blocks, `parse`
returns exactly one Invocation per block, in source order, with each
block's declared `tool_name` and key/value pairs; in particular the
`前面文字…Echo…后面文字` scenario parses to exactly one Invocation
`{name := Echo, args := {msg ↦ hi}, fireAndForget := false}`, and two
consecutive well-formed blocks parse to two Invocations in source order. -/
theorem c4_parse_well_formed_blocks :
    (∀ (blocks : List (PyStr × PyStr × List (PyStr × PyStr))) (post : PyStr),
      (∀ b ∈ blocks, wfBlock b) → '<' ∉ post →
      parse (renderBlocks blocks post) =
        blocks.map fun b => ⟨b.2.1, b.2.2, false⟩) ∧
    parse ("前面文字<<<[TOOL_REQUEST]>>>tool_name:「始」Echo「末」,msg:「始」hi「末」<<<[END_TOOL_REQUEST]>>>后面文字".data) =
      [⟨"Echo".data, [("msg".data, "hi".data)], false⟩] ∧
    parse (("<<<[TOOL_REQUEST]>>>tool_name:「始」A「末」<<<[END_TOOL_REQUEST]>>>" ++
        "<<<[TOOL_REQUEST]>>>tool_name:「始」B「末」,k:「始」v「末」<<<[END_TOOL_REQUEST]>>>").data) =
      [⟨"A".data, [], false⟩, ⟨"B".data, [("k".data, "v".data)], false⟩] := by
  refine ⟨parse_renderBlocks, ?_, ?_⟩
  · rw [← parseF_agree]
    decide
  · rw [← parseF_agree]
    decide

/-- C4 witness: the round-trip theorem applied to one concrete well-formed
block with leading text. -/
theorem c4_parse_well_formed_blocks_witness :
    parse (renderBlocks
      [(("hello ".data : PyStr), ("Echo".data : PyStr),
        [(("msg".data : PyStr), ("hi there".data : PyStr))])] ("bye".data)) =
      [⟨"Echo".data, [("msg".data, "hi there".data)], false⟩] := by
  have := c4_parse_well_formed_blocks.1
    [(("hello ".data : PyStr), ("Echo".data : PyStr),
      [(("msg".data : PyStr), ("hi there".data : PyStr))])] ("bye".data)
    (by decide) (by decide)
  simpa using this

/-- C5 counterexample: the claim says any `archery` value other than `true`
yields `fireAndForget = false`, but the code also accepts `no_reply`: this
block's `archery` value is `no_reply`, not `true`, and the parsed
Invocation still has `fireAndForget = true`. -/
theorem c5_counterexample_no_reply :
    parse ("<<<[TOOL_REQUEST]>>>tool_name:「始」T「末」,archery:「始」no_reply「末」<<<[END_TOOL_REQUEST]>>>".data) =
      [⟨"T".data, [], true⟩] := by
  rw [← parseF_agree]
  decide

/-- C5 (amended): for every parsed block, `fireAndForget` is true exactly
when the last `archery` parameter in the block has stripped value `true`
or `no_reply`; with no `archery` parameter it is false. -/
theorem c5_archery_flag (s : PyStr) (tc : ToolCall) (h : parseBlock s = some tc) :
    tc.archery =
      match lastArcheryValue (findParams s) with
      | some v =>
        (pyStrip v = ("true".data : PyStr) || pyStrip v = ("no_reply".data : PyStr))
      | none => false := by
  rw [parseBlock] at h
  split at h
  · rename_i n hn
    split at h
    · cases h
    · simp only [Option.some.injEq] at h
      subst h
      have := foldl_blockStep_archery (findParams s) ⟨[], none, false⟩
      exact this
  · cases h

/-- C5 witness: the amended characterization applied to a concrete block
with an `archery:「始」true「末」` parameter. -/
theorem c5_archery_flag_witness :
    (⟨"T".data, [], true⟩ : ToolCall).archery =
      match lastArcheryValue (findParams ("tool_name:「始」T「末」,archery:「始」true「末」".data)) with
      | some v =>
        (pyStrip v = ("true".data : PyStr) || pyStrip v = ("no_reply".data : PyStr))
      | none => false :=
  c5_archery_flag ("tool_name:「始」T「末」,archery:「始」true「末」".data)
    ⟨"T".data, [], true⟩ (by rw [← parseBlockF_agree]; decide)

/-- C6: a block delimited by both markers whose body has no `tool_name`
parameter yields zero Invocations, even when its other key/value pairs
parse correctly. -/
theorem c6_block_without_tool_name (pre body post : PyStr)
    (hpre : '<' ∉ pre) (hbody : '<' ∉ body) (hpost : '<' ∉ post)
    (hnokey : ∀ p ∈ findParams (pyStrip body), p.1 ≠ ("tool_name".data : PyStr)) :
    parse (pre ++ (markerStart ++ (body ++ (markerEnd ++ post)))) = [] := by
  rw [parse_eq_parseLoop]
  have hsplit1 : splitFirst markerStart
      (pre ++ (markerStart ++ (body ++ (markerEnd ++ post)))) =
      some (pre, body ++ (markerEnd ++ post)) :=
    splitFirst_first_occurrence (a := '<') (by decide) hpre
  have hsplit2 : splitFirst markerEnd (body ++ (markerEnd ++ post)) = some (body, post) :=
    splitFirst_first_occurrence (a := '<') (by decide) hbody
  rw [parseLoop_block hsplit1 hsplit2]
  show (match parseBlock (pyStrip body) with
    | some tc => tc :: parseLoop post
    | none => parseLoop post) = _
  rw [parseBlock_none_of_no_tool_name hnokey]
  exact parseLoop_nil_of_no_start (containsSub_false_of_not_mem (a := '<') (by decide) hpost)

/-- C6 witness: the theorem applied to a concrete block whose body parses
an ordinary key/value pair but has no `tool_name` key. -/
theorem c6_block_without_tool_name_witness :
    parse (("ab".data : PyStr) ++ (markerStart ++
      (("k:「始」v「末」".data : PyStr) ++ (markerEnd ++ ("cd".data : PyStr))))) = [] :=
  c6_block_without_tool_name ("ab".data) ("k:「始」v「末」".data) ("cd".data)
    (by decide) (by decide) (by decide)
    (by rw [← findParamsF_agree 100 _ (by decide)]; decide)

/-- C10: every `ToolCall` returned by `parse` has a non-empty name, an
argument map free of the reserved keys `tool_name` and `archery`, and
argument values invariant under stripping (their surrounding whitespace
has been removed). -/
theorem c10_parse_invariants (content : PyStr) (tc : ToolCall) (h : tc ∈ parse content) :
    tc.name ≠ [] ∧ ∀ p ∈ tc.args,
      p.1 ≠ ("tool_name".data : PyStr) ∧
      p.1 ≠ ("archery".data : PyStr) ∧ pyStrip p.2 = p.2 :=
  parse_mem_props h

/-- C10 witness: the invariants instantiated at a concrete parse whose
value carries surrounding whitespace in the source text. -/
theorem c10_parse_invariants_witness :
    (⟨"T".data, [("k".data, "v w".data)], false⟩ : ToolCall).name ≠ [] ∧
    ∀ p ∈ (⟨"T".data, [("k".data, "v w".data)], false⟩ : ToolCall).args,
      p.1 ≠ ("tool_name".data : PyStr) ∧
      p.1 ≠ ("archery".data : PyStr) ∧ pyStrip p.2 = p.2 :=
  c10_parse_invariants
    ("<<<[TOOL_REQUEST]>>>tool_name:「始」T「末」,k:「始」 v w 「末」<<<[END_TOOL_REQUEST]>>>".data)
    ⟨"T".data, [("k".data, "v w".data)], false⟩ (by rw [← parseF_agree]; decide)

/-- C2 counterexample: a process that exits 0 with the valid JSON
`{"status": "error", "error": "boom"}` does not yield a success outcome,
contradicting the claim that a zero exit code with valid JSON yields a
success outcome. -/
theorem c2_counterexample_status_error :
    (processResultSafe ("T".data)
      (executeStdioWait ("T".data)
        (ProcBehavior.exited 0 [] (Except.ok (Json.obj
          [(("status".data : PyStr), Json.str ("error".data)),
           (("error".data : PyStr), Json.str ("boom".data))])))).2).success = false := by
  decide

theorem executeStdioWait_exited (pluginName : PyStr) (rc : Int) (st : PyStr)
    (sp : Except PyStr Json) :
    executeStdioWait pluginName (ProcBehavior.exited rc st sp) =
      if rc ≠ 0 then
        ([], stdioErrorObj ("Plugin '".data ++ pluginName ++ "' failed: ".data ++
          (if st.isEmpty then "Unknown error".data else st)))
      else
        match sp with
        | Except.ok j => ([], j)
        | Except.error e =>
          ([], stdioErrorObj ("Invalid JSON output from plugin: ".data ++ e)) := rfl

/-- C2 (amended): for a subprocess tool call whose process exits, a
non-zero exit code yields a failure outcome carrying the error-stream text
(or `Unknown error` when that stream is empty); a zero exit code with
unparsable output yields a failure outcome naming the JSON parse error;
and a zero exit code with a valid JSON object whose `status` field equals
`"success"` yields a success outcome whose `content` is taken from the
`result` field of that JSON (the field's `content` sub-field when the
field is an object containing one, the field's value otherwise) and whose
`raw` is the full parsed JSON; a valid JSON object without
`status = "success"` yields a failure outcome carrying the JSON's `error`
field (or the default unknown-error message when that field is absent). -/
theorem c2_stdio_exit_outcomes (pluginName : PyStr) (returncode : Int)
    (stderrText : PyStr) (stdoutParse : Except PyStr Json) :
    (returncode ≠ 0 →
      (processResultSafe pluginName
        (executeStdioWait pluginName
          (ProcBehavior.exited returncode stderrText stdoutParse)).2).success = false ∧
      (processResultSafe pluginName
        (executeStdioWait pluginName
          (ProcBehavior.exited returncode stderrText stdoutParse)).2).content =
        Json.str ("[错误] ".data ++ ("Plugin '".data ++ pluginName ++ "' failed: ".data ++
          (if stderrText.isEmpty then "Unknown error".data else stderrText)))) ∧
    (returncode = 0 → ∀ e, stdoutParse = Except.error e →
      (processResultSafe pluginName
        (executeStdioWait pluginName
          (ProcBehavior.exited returncode stderrText stdoutParse)).2).success = false ∧
      (processResultSafe pluginName
        (executeStdioWait pluginName
          (ProcBehavior.exited returncode stderrText stdoutParse)).2).content =
        Json.str ("[错误] ".data ++ ("Invalid JSON output from plugin: ".data ++ e))) ∧
    (returncode = 0 → ∀ kvs, stdoutParse = Except.ok (Json.obj kvs) →
      ((jsonGet kvs ("status".data)).any fun j => jsonEqStr j ("success".data)) = true →
      (processResultSafe pluginName
        (executeStdioWait pluginName
          (ProcBehavior.exited returncode stderrText stdoutParse)).2).success = true ∧
      (processResultSafe pluginName
        (executeStdioWait pluginName
          (ProcBehavior.exited returncode stderrText stdoutParse)).2).raw =
        some (Json.obj kvs) ∧
      (processResultSafe pluginName
        (executeStdioWait pluginName
          (ProcBehavior.exited returncode stderrText stdoutParse)).2).content =
        (match jsonGet kvs ("result".data) with
         | some (Json.obj rkvs) =>
           (match jsonGet rkvs ("content".data) with
            | some c => c
            | none => Json.obj rkvs)
         | some j => j
         | none => Json.null)) ∧
    (returncode = 0 → ∀ kvs, stdoutParse = Except.ok (Json.obj kvs) →
      ((jsonGet kvs ("status".data)).any fun j => jsonEqStr j ("success".data)) = false →
      (processResultSafe pluginName
        (executeStdioWait pluginName
          (ProcBehavior.exited returncode stderrText stdoutParse)).2).success = false ∧
      (processResultSafe pluginName
        (executeStdioWait pluginName
          (ProcBehavior.exited returncode stderrText stdoutParse)).2).error =
        some (match jsonGet kvs ("error".data) with
          | some e => e
          | none => Json.str ("未知错误".data)) ∧
      (processResultSafe pluginName
        (executeStdioWait pluginName
          (ProcBehavior.exited returncode stderrText stdoutParse)).2).content =
        Json.str ("[错误] ".data ++ jsonDisplay (match jsonGet kvs ("error".data) with
          | some e => e
          | none => Json.str ("未知错误".data)))) := by
  refine ⟨?_, ?_, ?_, ?_⟩
  · intro hrc
    rw [executeStdioWait_exited, if_pos hrc]
    constructor
    · rfl
    · simp [processResultSafe, stdioErrorObj, processResult, jsonGet, jsonEqStr,
        createErrorResult, jsonDisplay]
  · intro hrc e he
    subst hrc he
    rw [executeStdioWait_exited, if_neg (by simp)]
    constructor
    · rfl
    · simp [processResultSafe, stdioErrorObj, processResult, jsonGet, jsonEqStr,
        createErrorResult, jsonDisplay]
  · intro hrc kvs hok hstatus
    subst hrc hok
    rw [executeStdioWait_exited, if_neg (by simp)]
    show (processResult pluginName kvs).success = true ∧
      (processResult pluginName kvs).raw = some (Json.obj kvs) ∧
      (processResult pluginName kvs).content = _
    rw [processResult, if_pos hstatus]
    exact ⟨rfl, rfl, rfl⟩
  · intro hrc kvs hok hstatus
    subst hrc hok
    rw [executeStdioWait_exited, if_neg (by simp)]
    show (processResult pluginName kvs).success = false ∧
      (processResult pluginName kvs).error = _ ∧
      (processResult pluginName kvs).content = _
    rw [processResult, if_neg (by simp [hstatus]), createErrorResult]
    exact ⟨rfl, rfl, rfl⟩

/-- C2 witness: the amended outcome rules applied to a process exiting 0
with `{"status": "success", "result": "done"}`. -/
theorem c2_stdio_exit_outcomes_witness :
    (processResultSafe ("T".data)
      (executeStdioWait ("T".data)
        (ProcBehavior.exited 0 [] (Except.ok (Json.obj
          [(("status".data : PyStr), Json.str ("success".data)),
           (("result".data : PyStr), Json.str ("done".data))])))).2).success = true ∧
    (processResultSafe ("T".data)
      (executeStdioWait ("T".data)
        (ProcBehavior.exited 0 [] (Except.ok (Json.obj
          [(("status".data : PyStr), Json.str ("success".data)),
           (("result".data : PyStr), Json.str ("done".data))])))).2).raw =
      some (Json.obj
        [(("status".data : PyStr), Json.str ("success".data)),
         (("result".data : PyStr), Json.str ("done".data))]) := by
  have := (c2_stdio_exit_outcomes ("T".data) 0 []
    (Except.ok (Json.obj
      [(("status".data : PyStr), Json.str ("success".data)),
       (("result".data : PyStr), Json.str ("done".data))]))).2.2.1
    rfl _ rfl (by decide)
  exact ⟨this.1, this.2.1⟩

/-- C3: dispatch never raises (the embedding is a total function): an
Invocation whose name is not registered returns `success = false` with a
content naming the missing tool explicitly, and a handler exception is
likewise captured and returned as a failure outcome with a human-readable
content. -/
theorem c3_dispatch_never_raises (plugins : List PyStr)
    (processToolCall : PyStr → List (PyStr × PyStr) → Except PyStr Json)
    (tc : ToolCall) :
    (tc.name ∉ plugins →
      (executeToolCall plugins processToolCall tc).success = false ∧
      (executeToolCall plugins processToolCall tc).content =
        Json.str ("[错误] ".data ++ ("未找到名为 \"".data ++ tc.name ++ "\" 的插件".data))) ∧
    (∀ e, tc.name ∈ plugins → processToolCall tc.name tc.args = Except.error e →
      (executeToolCall plugins processToolCall tc).success = false ∧
      (executeToolCall plugins processToolCall tc).content =
        Json.str ("[错误] ".data ++ ("执行错误: ".data ++ e))) ∧
    (∀ kvs, tc.name ∈ plugins → processToolCall tc.name tc.args = Except.ok (Json.obj kvs) →
      ((jsonGet kvs ("status".data)).any fun j => jsonEqStr j ("success".data)) = false →
      (executeToolCall plugins processToolCall tc).success = false) := by
  refine ⟨?_, ?_, ?_⟩
  · intro hmem
    rw [executeToolCall, if_neg hmem]
    exact ⟨rfl, by simp [createErrorResult, jsonDisplay]⟩
  · intro e hmem he
    rw [executeToolCall, if_pos hmem, he]
    exact ⟨rfl, by simp [createErrorResult, jsonDisplay]⟩
  · intro kvs hmem hok hstatus
    rw [executeToolCall, if_pos hmem, hok]
    show (processResult tc.name kvs).success = false
    rw [processResult, if_neg (by simp [hstatus]), createErrorResult]

/-- C3 witness: dispatching the unregistered tool `Nope` against an empty
registry. -/
theorem c3_dispatch_never_raises_witness :
    (executeToolCall [] (fun _ _ => Except.ok Json.null)
      ⟨"Nope".data, [], false⟩).success = false ∧
    (executeToolCall [] (fun _ _ => Except.ok Json.null)
      ⟨"Nope".data, [], false⟩).content =
      Json.str ("[错误] ".data ++ ("未找到名为 \"".data ++ "Nope".data ++ "\" 的插件".data)) :=
  (c3_dispatch_never_raises [] (fun _ _ => Except.ok Json.null)
    ⟨"Nope".data, [], false⟩).1 (by simp)

/-- C9: when the subprocess wait times out, the code kills the process and
then reaps it (it is not left running), and returns a failure outcome
describing the timeout; the descriptor timeout defaults to 60000 ms when
the manifest carries none. -/
theorem c9_stdio_timeout_kills_process (pluginName : PyStr) (behavior : ProcBehavior)
    (h : behavior = ProcBehavior.timeout) :
    (executeStdioWait pluginName behavior).1 = [ProcAction.kill, ProcAction.wait] ∧
    (executeStdioWait pluginName behavior).2 =
      stdioErrorObj ("Plugin '".data ++ pluginName ++ "' execution timeout".data) ∧
    (processResultSafe pluginName (executeStdioWait pluginName behavior).2).success = false ∧
    (processResultSafe pluginName (executeStdioWait pluginName behavior).2).content =
      Json.str ("[错误] ".data ++
        ("Plugin '".data ++ pluginName ++ "' execution timeout".data)) ∧
    stdioTimeoutMs [] = Json.num 60000 := by
  subst h
  refine ⟨rfl, rfl, rfl, ?_, rfl⟩
  simp [executeStdioWait, processResultSafe, stdioErrorObj, processResult,
    jsonGet, jsonEqStr, createErrorResult, jsonDisplay]

/-- C9 witness: the timeout behavior at a concrete plugin name. -/
theorem c9_stdio_timeout_kills_process_witness :
    (executeStdioWait ("DeepMemo".data) ProcBehavior.timeout).1 =
      [ProcAction.kill, ProcAction.wait] ∧
    (processResultSafe ("DeepMemo".data)
      (executeStdioWait ("DeepMemo".data) ProcBehavior.timeout).2).success = false :=
  ⟨(c9_stdio_timeout_kills_process ("DeepMemo".data) ProcBehavior.timeout rfl).1,
   (c9_stdio_timeout_kills_process ("DeepMemo".data) ProcBehavior.timeout rfl).2.2.1⟩

/-! ### Loop lemmas (C7, C8) -/

theorem foldl_roundStep_fields (chunks : List PyStr) :
    ∀ st : RoundOutput,
      (chunks.foldl roundStep st).responseChunks = st.responseChunks ++ chunks ∧
      (chunks.foldl roundStep st).yields = st.yields ++ chunks := by
  induction chunks with
  | nil => intro st; simp
  | cons c rest ih =>
    intro st
    simp only [List.foldl_cons]
    obtain ⟨h1, h2⟩ := ih (roundStep st c)
    rw [h1, h2]
    simp [roundStep]

theorem runRound_responseChunks (chunks : List PyStr) :
    (runRound chunks).responseChunks = chunks := by
  simpa using (foldl_roundStep_fields chunks ⟨[], [], ⟨false, [], []⟩⟩).1

theorem runRound_yields (chunks : List PyStr) :
    (runRound chunks).yields = chunks := by
  simpa using (foldl_roundStep_fields chunks ⟨[], [], ⟨false, [], []⟩⟩).2

theorem parse_nil_of_no_start {s : PyStr}
    (h : containsSub markerStart s = false) : parse s = [] := by
  rw [parse_eq_parseLoop]
  exact parseLoop_nil_of_no_start h

theorem finalRoundCalls_ne_nil {chunks : List PyStr}
    (h : parse (joinAll chunks) ≠ []) :
    finalRoundCalls (runRound chunks) ≠ [] := by
  rw [finalRoundCalls, runRound_responseChunks]
  cases hsc : (runRound chunks).scan.toolCalls with
  | nil =>
    rw [if_pos]
    · exact h
    · simp only [List.isEmpty_nil, Bool.and_true]
      cases hcs : containsSub markerStart (joinAll chunks) with
      | false => exact absurd (parse_nil_of_no_start hcs) h
      | true => rfl
  | cons tc rest =>
    rw [if_neg]
    · simp
    · simp

theorem chatLoop_zero (llm : List ChatMessage → List PyStr)
    (execTool : ToolCall → ExecResult) (msgs : List ChatMessage) :
    chatLoop llm execTool 0 msgs = ([], msgs) := rfl

theorem chatLoop_succ (llm : List ChatMessage → List PyStr)
    (execTool : ToolCall → ExecResult) (fuel : Nat) (msgs : List ChatMessage) :
    chatLoop llm execTool (fuel + 1) msgs =
      if (finalRoundCalls (runRound (llm msgs))).isEmpty then
        ([(runRound (llm msgs)).yields], msgs)
      else
        ((runRound (llm msgs)).yields ::
          (chatLoop llm execTool fuel (msgs ++
            [⟨"assistant".data, joinAll (runRound (llm msgs)).responseChunks⟩,
             ⟨"user".data, toolResultMsg (formatToolResults
               ((finalRoundCalls (runRound (llm msgs))).map execTool))⟩])).1,
         (chatLoop llm execTool fuel (msgs ++
            [⟨"assistant".data, joinAll (runRound (llm msgs)).responseChunks⟩,
             ⟨"user".data, toolResultMsg (formatToolResults
               ((finalRoundCalls (runRound (llm msgs))).map execTool))⟩])).2) := rfl

theorem chatLoop_rounds_le (llm : List ChatMessage → List PyStr)
    (execTool : ToolCall → ExecResult) :
    ∀ (fuel : Nat) (msgs : List ChatMessage),
      (chatLoop llm execTool fuel msgs).1.length ≤ fuel := by
  intro fuel
  induction fuel with
  | zero => intro msgs; rw [chatLoop_zero]; simp
  | succ fuel ih =>
    intro msgs
    rw [chatLoop_succ]
    split
    · simp
    · simp only [List.length_cons]
      exact Nat.succ_le_succ (ih _)

theorem chatLoop_rounds_exact (llm : List ChatMessage → List PyStr)
    (execTool : ToolCall → ExecResult)
    (hllm : ∀ m : List ChatMessage, parse (joinAll (llm m)) ≠ []) :
    ∀ (fuel : Nat) (msgs : List ChatMessage),
      (chatLoop llm execTool fuel msgs).1.length = fuel := by
  intro fuel
  induction fuel with
  | zero => intro msgs; rw [chatLoop_zero]; rfl
  | succ fuel ih =>
    intro msgs
    rw [chatLoop_succ]
    rw [if_neg (by
      intro hemp
      exact finalRoundCalls_ne_nil (hllm msgs) (List.isEmpty_iff.1 hemp))]
    simp only [List.length_cons]
    rw [ih]

theorem chatLoop_transcript_ne_nil (llm : List ChatMessage → List PyStr)
    (execTool : ToolCall → ExecResult)
    (hllm : ∀ m : List ChatMessage, parse (joinAll (llm m)) ≠ []) (fuel : Nat)
    (msgs : List ChatMessage) (hfuel : 0 < fuel) :
    transcriptText (chatLoop llm execTool fuel msgs).1 ≠ [] := by
  cases fuel with
  | zero => omega
  | succ fuel =>
    have hjoin : joinAll (llm msgs) ≠ [] := by
      intro hj
      apply hllm msgs
      rw [hj]
      rfl
    rw [chatLoop_succ]
    split
    · rw [transcriptText]
      simp only [List.map_cons, List.map_nil, joinAll, runRound_yields]
      simp [hjoin]
    · rw [transcriptText]
      simp only [List.map_cons, joinAll, runRound_yields]
      simp [hjoin]

/-- C7: the orchestration loop performs at most `maxIterations` rounds and
then terminates (the embedded loop is a total function); for a model client
whose every round's output contains a parseable tool-request block, it
performs exactly `maxIterations` rounds and the accumulated forwarded text
is non-empty. -/
theorem c7_loop_iteration_budget (llm : List ChatMessage → List PyStr)
    (execTool : ToolCall → ExecResult) (maxIter : Nat) (msgs : List ChatMessage) :
    (chatLoop llm execTool maxIter msgs).1.length ≤ maxIter ∧
    ((∀ m : List ChatMessage, parse (joinAll (llm m)) ≠ []) →
      (chatLoop llm execTool maxIter msgs).1.length = maxIter ∧
      (0 < maxIter → transcriptText (chatLoop llm execTool maxIter msgs).1 ≠ [])) := by
  refine ⟨chatLoop_rounds_le llm execTool maxIter msgs, ?_⟩
  intro hllm
  exact ⟨chatLoop_rounds_exact llm execTool hllm maxIter msgs,
    fun hpos => chatLoop_transcript_ne_nil llm execTool hllm maxIter msgs hpos⟩

/-- A scripted model client that emits one complete tool-request block
every round. -/
def scriptedClient : List ChatMessage → List PyStr :=
  fun _ => ["<<<[TOOL_REQUEST]>>>tool_name:「始」Echo「末」<<<[END_TOOL_REQUEST]>>>".data]

/-- A tool executor stub returning a fixed success outcome. -/
def constExec : ToolCall → ExecResult :=
  fun tc => ⟨true, Json.str ("ok".data), none, tc.name, none⟩

/-- C7 witness: the default budget of 5 rounds with the scripted client. -/
theorem c7_loop_iteration_budget_witness :
    (chatLoop scriptedClient constExec 5 []).1.length = 5 ∧
    transcriptText (chatLoop scriptedClient constExec 5 []).1 ≠ [] := by
  have h := (c7_loop_iteration_budget scriptedClient constExec 5 []).2 (by
    intro m
    show parse (joinAll (scriptedClient m)) ≠ []
    rw [show joinAll (scriptedClient m) =
      ("<<<[TOOL_REQUEST]>>>tool_name:「始」Echo「末」<<<[END_TOOL_REQUEST]>>>".data ++ [])
      from rfl]
    rw [← parseF_agree]
    decide)
  exact ⟨h.1, h.2 (by omega)⟩

/-- The two conversation turns the loop appends after a tool round whose
yielded chunks were `cs`. -/
def roundTurns (execTool : ToolCall → ExecResult) (cs : List PyStr) : List ChatMessage :=
  [⟨"assistant".data, joinAll cs⟩,
   ⟨"user".data, toolResultMsg (formatToolResults
     ((finalRoundCalls (runRound cs)).map execTool))⟩]

theorem runRound_of_yields (chunks : List PyStr) :
    runRound ((runRound chunks).yields) = runRound chunks := by
  rw [runRound_yields]

theorem chatLoop_history (llm : List ChatMessage → List PyStr)
    (execTool : ToolCall → ExecResult) :
    ∀ (fuel : Nat) (msgs : List ChatMessage),
      ∃ k : Nat, (chatLoop llm execTool fuel msgs).2 =
        msgs ++ (((chatLoop llm execTool fuel msgs).1.take k).map
          (roundTurns execTool)).flatten := by
  intro fuel
  induction fuel with
  | zero =>
    intro msgs
    exact ⟨0, by rw [chatLoop_zero]; simp⟩
  | succ fuel ih =>
    intro msgs
    rw [chatLoop_succ]
    split
    · exact ⟨0, by simp⟩
    · obtain ⟨k, hk⟩ := ih (msgs ++
        [⟨"assistant".data, joinAll (runRound (llm msgs)).responseChunks⟩,
         ⟨"user".data, toolResultMsg (formatToolResults
           ((finalRoundCalls (runRound (llm msgs))).map execTool))⟩])
      refine ⟨k + 1, ?_⟩
      simp only [List.take_succ_cons, List.map_cons, List.flatten_cons]
      rw [hk]
      have hturn : roundTurns execTool ((runRound (llm msgs)).yields) =
          [⟨"assistant".data, joinAll (runRound (llm msgs)).responseChunks⟩,
           ⟨"user".data, toolResultMsg (formatToolResults
             ((finalRoundCalls (runRound (llm msgs))).map execTool))⟩] := by
        rw [roundTurns, runRound_of_yields, runRound_yields, runRound_responseChunks]
      rw [hturn]
      simp

/-- C8: every chunk the model emits in a round is forwarded to the caller
verbatim and in order (markers included, never post-processed), and each
assistant turn the loop appends to the history equals the concatenation,
in order, of every chunk the model emitted that round. -/
theorem c8_transcript_verbatim (chunks : List PyStr)
    (llm : List ChatMessage → List PyStr) (execTool : ToolCall → ExecResult)
    (fuel : Nat) (msgs : List ChatMessage) :
    (runRound chunks).yields = chunks ∧
    joinAll (runRound chunks).responseChunks = joinAll chunks ∧
    ∃ k : Nat, (chatLoop llm execTool fuel msgs).2 =
      msgs ++ (((chatLoop llm execTool fuel msgs).1.take k).map
        (roundTurns execTool)).flatten :=
  ⟨runRound_yields chunks, by rw [runRound_responseChunks],
   chatLoop_history llm execTool fuel msgs⟩

end EmoCore
